import Mathlib

/-!
Shallow embedding of the region-reference reconciliation routines of the
NightKidz shop repository, and of the storefront region cache.

Sources embedded:
* `update-db.js` — `fixRegionReferences`: replacement selection (lines 88-100),
  dangling-id discovery (lines 102-121), per-table update sweep (lines 127-156).
* `fix-regions.js` — `main`'s update loop (lines 100-134).
* `src/unnamed/part_006` — replacement choice by currency (lines 596-624) and
  `updateRegionReferences` (lines 116-186).
* `storefront/src/lib/data/regions.ts` — `getRegion` and its module-level
  `regionMap` (lines 90-118).

A database is modelled as a list of regions plus an association list from
table names to table states; SQL statements become pure functions on it.
-/

/-- A generic association-list lookup: first pair whose key matches.
Models both SQL name resolution for tables and JS `Map.get`. -/
def assocFind {β : Type} : List (String × β) → String → Option β
  | [], _ => none
  | p :: rest, k => if p.1 = k then some p.2 else assocFind rest k

/-- Rewrite every pair carrying key `k` to value `v`; keys not present are not
added (an SQL `UPDATE` never creates a table). -/
def assocSet {β : Type} (l : List (String × β)) (k : String) (v : β) :
    List (String × β) :=
  l.map (fun p => if p.1 = k then (k, v) else p)

/-- JS `Map.set`: overwrite the key when present, append it otherwise. -/
def mapSet {β : Type} (l : List (String × β)) (k : String) (v : β) :
    List (String × β) :=
  if (assocFind l k).isSome then assocSet l k v else l ++ [(k, v)]

/-- A row of the `region` table as the scripts read it:
`SELECT id, name, currency_code FROM region WHERE deleted_at IS NULL`. -/
structure Region where
  id : String
  name : String
  currency_code : String
  deleted_at : Option Nat
deriving DecidableEq, Repr

/-- A row of a referencing table: the nullable `region_id` column the scripts
rewrite, plus the rest of the row (opaque to the reconciler). -/
structure Row (α : Type) where
  region_id : Option String
  rest : α
deriving DecidableEq, Repr

/-- The state of one referencing table as the UPDATE statements observe it:
either the `region_id` column is absent (the statement raises), or the
statement itself errors (e.g. a constraint violation), or the rows are
updatable. A table absent from the schema is modelled by the name being
absent from the association list. -/
inductive TableState (α : Type) where
  | noColumn
  | broken (rows : List (Row α))
  | ok (rows : List (Row α))
deriving DecidableEq, Repr

/-- The referencing tables of a database, keyed by table name. -/
abbrev Tables (α : Type) := List (String × TableState α)

/-- The database as the reconciliation scripts see it: the `region` table and
the referencing tables. -/
structure DB (α : Type) where
  regions : List Region
  tables : Tables α
deriving DecidableEq, Repr

/-- The query `SELECT ... FROM region WHERE deleted_at IS NULL` — the valid regions. -/
def validRegions (regions : List Region) : List Region :=
  regions.filter (fun r => decide (r.deleted_at = none))

/-- Identifiers of the valid regions. -/
def validIds (regions : List Region) : List String :=
  (validRegions regions).map (fun r => r.id)

/-- Embeds `update-db.js` lines 88-99: `SELECT id FROM region WHERE deleted_at IS
NULL LIMIT 1`; the store's stable return order is the list order. -/
def selectReplacement (regions : List Region) : Option String :=
  (validRegions regions).head?.map (fun r => r.id)

/-- From `update-db.js` line 108: the hardcoded known problematic region id. -/
def hardcodedId : String := "reg_01JVK89Q8PEA1EMJS7FPBN12VF"

/-- Append a value unless already present — the `forEach`/`push` idiom of
`update-db.js` lines 111-115 and SQL `DISTINCT` collection. -/
def pushUnique (acc : List String) (v : String) : List String :=
  if v ∈ acc then acc else acc ++ [v]

/-- Embeds `update-db.js` lines 103-105: `SELECT DISTINCT region_id FROM cart WHERE
region_id NOT IN (SELECT id FROM region WHERE deleted_at IS NULL) AND
region_id IS NOT NULL`, evaluated over the cart rows. -/
def danglingIn {α : Type} (rows : List (Row α)) (vids : List String) :
    List String :=
  ((rows.filterMap (fun r => r.region_id)).filter
    (fun v => decide (v ∉ vids))).foldl pushUnique []

/-- Embeds `update-db.js` lines 107-115: start from the hardcoded id, then add each
discovered id not already present. -/
def problematicIds (discovered : List String) : List String :=
  discovered.foldl pushUnique [hardcodedId]

/-- The discovery query of `update-db.js` lines 103-105. It targets the
`cart` table; a missing table or missing `region_id` column makes the SELECT
raise (`none`), which the enclosing `try` rethrows. A table whose UPDATEs
fail (`broken`) still answers SELECTs. -/
def discoverDangling {α : Type} (db : DB α) : Option (List String) :=
  match assocFind db.tables "cart" with
  | none => none
  | some TableState.noColumn => none
  | some (TableState.broken rows) => some (danglingIn rows (validIds db.regions))
  | some (TableState.ok rows) => some (danglingIn rows (validIds db.regions))

/-- One cell under `UPDATE t SET region_id = repl WHERE region_id = dang`. -/
def updateCell (repl dang : String) (v : Option String) : Option String :=
  if v = some dang then some repl else v

/-- One row under the same UPDATE. -/
def updateRow {α : Type} (repl dang : String) (r : Row α) : Row α :=
  ⟨updateCell repl dang r.region_id, r.rest⟩

/-- The `rowCount` of the UPDATE: the rows matching the WHERE clause. -/
def countMatches {α : Type} (d : String) (rows : List (Row α)) : Nat :=
  (rows.filter (fun r => decide (r.region_id = some d))).length

/-- The value of one cell after the UPDATEs for a whole list of dangling ids
have run in order. -/
def applyDangs (repl : String) : List String → Option String → Option String
  | [], v => v
  | d :: ds, v => applyDangs repl ds (updateCell repl d v)

/-- The inner loop of `update-db.js` lines 141-146: one UPDATE per dangling
id against the same table, accumulating the affected-row counts (the counts
are what `fix-regions.js` lines 117-127 report as `rowCount`). -/
def updatePass {α : Type} (repl : String) :
    List (Row α) → Nat → List String → List (Row α) × Nat
  | rows, acc, [] => (rows, acc)
  | rows, acc, d :: ds =>
      updatePass repl (rows.map (updateRow repl d)) (acc + countMatches d rows) ds

/-- The per-table report entry: rows updated, or skipped by the `catch`. -/
inductive TableResult where
  | fixed (rowsUpdated : Nat)
  | skipped
deriving DecidableEq, Repr

/-- Process one existing table: a missing column or a failing UPDATE is
caught (`update-db.js` lines 150-155, `fix-regions.js` lines 128-133) and the
table is skipped with its rows untouched; otherwise all UPDATEs run. -/
def processTable {α : Type} (repl : String) (dangs : List String) :
    TableState α → TableState α × TableResult
  | TableState.noColumn => (TableState.noColumn, TableResult.skipped)
  | TableState.broken rows => (TableState.broken rows, TableResult.skipped)
  | TableState.ok rows =>
      (TableState.ok (updatePass repl rows 0 dangs).1,
       TableResult.fixed (updatePass repl rows 0 dangs).2)

/-- Process one table by name: a table absent from the schema makes the
UPDATE raise, which the per-table `catch` turns into a skip. -/
def processNamedTable {α : Type} (repl : String) (dangs : List String)
    (ts : Tables α) (name : String) : Tables α × TableResult :=
  match assocFind ts name with
  | none => (ts, TableResult.skipped)
  | some st =>
      (assocSet ts name (processTable repl dangs st).1,
       (processTable repl dangs st).2)

/-- The outer loop over the configured table list (`update-db.js` lines
139-156, `fix-regions.js` lines 115-134): each table is processed in order
and its outcome recorded. -/
def reconcile {α : Type} (repl : String) (dangs : List String)
    (ts : Tables α) : List String → Tables α × List (String × TableResult)
  | [] => (ts, [])
  | n :: rest =>
      ((reconcile repl dangs (processNamedTable repl dangs ts n).1 rest).1,
       (n, (processNamedTable repl dangs ts n).2) ::
         (reconcile repl dangs (processNamedTable repl dangs ts n).1 rest).2)

/-- The configured table list of `update-db.js` lines 128-137. -/
def updateDbTables : List String :=
  ["cart", "customer", "payment_session", "shipping_option",
   "shipping_method", "discount", "payment_collection", "pricing"]

/-- The configured table list of `fix-regions.js` lines 102-111. -/
def fixRegionsTables : List String :=
  ["cart", "customer", "discount_condition_region", "discount_region",
   "order", "payment_collection", "payment_session", "shipping_option"]

/-- The configured table list of `part_006`'s `updateRegionReferences`. -/
def part006Tables : List String :=
  ["cart", "customer", "discount_condition_region", "discount_region",
   "order", "payment_collection", "payment_session", "shipping_option",
   "draft_order", "batch_job", "claim_order", "swap", "gift_card"]

/-- Outcome of one `fixRegionReferences` run of `update-db.js`:
* `fatal` — a query threw; the enclosing `catch` rethrows and `main` exits 1;
* `noValidRegion` — the early return of lines 93-97, database untouched;
* `noProblematicIds` — the early return of lines 117-121;
* `completed` — the update sweep ran, with its report.
Each constructor carries the database as the run leaves it. -/
inductive RunResult (α : Type) where
  | fatal (db : DB α)
  | noValidRegion (db : DB α)
  | noProblematicIds (db : DB α)
  | completed (db : DB α) (repl : String) (dangs : List String)
      (report : List (String × TableResult))
deriving DecidableEq, Repr

/-- Embeds `update-db.js` `fixRegionReferences` (lines 69-166) end to end. -/
def fixRegionReferences {α : Type} (db : DB α) : RunResult α :=
  match selectReplacement db.regions with
  | none => RunResult.noValidRegion db
  | some repl =>
    match discoverDangling db with
    | none => RunResult.fatal db
    | some discovered =>
      if (problematicIds discovered).length = 0 then
        RunResult.noProblematicIds db
      else
        RunResult.completed
          ⟨db.regions,
           (reconcile repl (problematicIds discovered) db.tables updateDbTables).1⟩
          repl (problematicIds discovered)
          (reconcile repl (problematicIds discovered) db.tables updateDbTables).2

/-- Exit status of `update-db.js` `main` (lines 30-48): only a thrown error
reaches the `catch` and `process.exit(1)`; every other outcome — the
no-valid-region early return included — falls through to the success message
and the implicit exit status 0. -/
def mainExitCode {α : Type} : RunResult α → Nat
  | RunResult.fatal _ => 1
  | _ => 0

/-- Substring match at the head of a character list. -/
def matchesAt : List Char → List Char → Bool
  | [], _ => true
  | _ :: _, [] => false
  | a :: as, b :: bs => a == b && matchesAt as bs

/-- Substring search over character lists. -/
def hasSub (sub : List Char) : List Char → Bool
  | [] => sub.isEmpty
  | b :: bs => matchesAt sub (b :: bs) || hasSub sub bs

/-- JS `String.prototype.includes`. -/
def stringIncludes (s sub : String) : Bool :=
  hasSub sub.toList s.toList

/-- Embeds `part_006` lines 596-625: given the valid regions (the result of
`getAvailableRegions`), find the usd and eur regions and choose the
replacement for one detected old region id. -/
def part006ChooseReplacement (availableRegions : List Region)
    (oldRegionId : String) : Option Region :=
  let usRegion := availableRegions.find? (fun r => decide (r.currency_code = "usd"))
  let euRegion := availableRegions.find? (fun r => decide (r.currency_code = "eur"))
  if (stringIncludes oldRegionId "us" || oldRegionId == hardcodedId)
      && usRegion.isSome then
    usRegion
  else
    (usRegion.orElse fun _ => euRegion).orElse fun _ => availableRegions.head?

/-- A country entry of a storefront region; `iso_2` is optional, mirroring
the `c?.iso_2 ?? ""` access in `regions.ts` line 106. -/
structure StoreCountry where
  iso_2 : Option String
deriving DecidableEq, Repr

/-- A storefront region as `getRegion` consumes it. -/
structure StoreRegion where
  id : String
  name : String
  currency_code : String
  countries : List StoreCountry
deriving DecidableEq, Repr

/-- The module-level `regionMap` of `regions.ts` line 90. -/
abbrev RegionMap := List (String × StoreRegion)

/-- Embeds `regions.ts` lines 104-108: fill the map from the fetched region list. -/
def populateMap (regions : List StoreRegion) (m : RegionMap) : RegionMap :=
  regions.foldl
    (fun acc region =>
      region.countries.foldl
        (fun acc2 c => mapSet acc2 (c.iso_2.getD "") region) acc)
    m

/-- Embeds `regions.ts` `getRegion` (lines 92-118). The backend interaction
(`listRegions`) is a parameter: it either throws (`Except.error`, caught by
the surrounding `try` which returns null), returns a falsy value (the
`if (!regions) return null` branch), or returns the region list. The JS
truthiness test `countryCode ? map.get(countryCode) : map.get("us")` is the
emptiness test on the string. The returned pair is (result, regionMap after
the call). -/
def getRegion (backend : Except Unit (Option (List StoreRegion)))
    (m : RegionMap) (countryCode : String) : Option StoreRegion × RegionMap :=
  match assocFind m countryCode with
  | some r => (some r, m)
  | none =>
    match backend with
    | Except.error _ => (none, m)
    | Except.ok none => (none, m)
    | Except.ok (some regions) =>
        (if countryCode = "" then assocFind (populateMap regions m) "us"
         else assocFind (populateMap regions m) countryCode,
         populateMap regions m)

theorem applyDangs_fixed (repl : String) (dangs : List String) :
    applyDangs repl dangs (some repl) = some repl := by
  induction dangs with
  | nil => rfl
  | cons d ds ih =>
      simp only [applyDangs, updateCell]
      split <;> exact ih

theorem applyDangs_of_eq {d : String} (repl : String) {dangs : List String}
    (hd : d ∈ dangs) : applyDangs repl dangs (some d) = some repl := by
  induction dangs with
  | nil => cases hd
  | cons a as ih =>
      simp only [applyDangs, updateCell]
      by_cases h : d = a
      · subst h
        simp only [if_pos rfl]
        exact applyDangs_fixed repl as
      · rcases List.mem_cons.mp hd with h' | h'
        · exact absurd h' h
        · have : (some d : Option String) ≠ some a := by
            intro hc; exact h (Option.some.inj hc)
          rw [if_neg this]
          exact ih h'

theorem applyDangs_ne_of_ne {repl d : String} {v : Option String}
    (hv : v ≠ some d) (hrd : repl ≠ d) (dangs : List String) :
    applyDangs repl dangs v ≠ some d := by
  induction dangs generalizing v with
  | nil => exact hv
  | cons a as ih =>
      simp only [applyDangs, updateCell]
      split
      · exact ih (by intro hc; exact hrd (Option.some.inj hc))
      · exact ih hv

theorem applyDangs_ne_of_mem {repl d : String} {dangs : List String}
    (hd : d ∈ dangs) (hrd : repl ≠ d) (v : Option String) :
    applyDangs repl dangs v ≠ some d := by
  induction dangs generalizing v with
  | nil => cases hd
  | cons a as ih =>
      simp only [applyDangs, updateCell]
      by_cases hda : d = a
      · subst hda
        split
        · exact applyDangs_ne_of_ne (fun hc => hrd (Option.some.inj hc)) hrd as
        · next hne => exact applyDangs_ne_of_ne hne hrd as
      · have hd' : d ∈ as := by
          rcases List.mem_cons.mp hd with h' | h'
          · exact absurd h' hda
          · exact h'
        split
        · exact ih hd' (some repl)
        · exact ih hd' v

theorem applyDangs_of_not_mem {repl : String} {v : Option String}
    {dangs : List String} (h : ∀ d ∈ dangs, v ≠ some d) :
    applyDangs repl dangs v = v := by
  induction dangs with
  | nil => rfl
  | cons a as ih =>
      simp only [applyDangs, updateCell]
      rw [if_neg (h a (List.mem_cons_self a as))]
      exact ih (fun d hd => h d (List.mem_cons_of_mem a hd))

theorem row_eta {α : Type} (r : Row α) : (⟨r.region_id, r.rest⟩ : Row α) = r := rfl

theorem updatePass_fst {α : Type} (repl : String) (dangs : List String) :
    ∀ (rows : List (Row α)) (acc : Nat),
      (updatePass repl rows acc dangs).1 =
        rows.map (fun r => ⟨applyDangs repl dangs r.region_id, r.rest⟩) := by
  induction dangs with
  | nil =>
      intro rows acc
      simp only [updatePass, applyDangs]
      exact (List.map_id rows).symm
  | cons d ds ih =>
      intro rows acc
      simp only [updatePass]
      rw [ih, List.map_map]
      rfl

theorem updatePass_zero {α : Type} (repl : String) {dangs : List String}
    {rows : List (Row α)}
    (h : ∀ r ∈ rows, ∀ d ∈ dangs, r.region_id ≠ some d) (acc : Nat) :
    updatePass repl rows acc dangs = (rows, acc) := by
  induction dangs with
  | nil => rfl
  | cons d ds ih =>
      simp only [updatePass]
      have hmap : rows.map (updateRow repl d) = rows := by
        have : ∀ r ∈ rows, updateRow repl d r = r := by
          intro r hr
          simp only [updateRow, updateCell]
          rw [if_neg (h r hr d (List.mem_cons_self d ds))]
        calc rows.map (updateRow repl d)
            = rows.map id := List.map_congr_left this
          _ = rows := List.map_id rows
      have hcount : countMatches d rows = 0 := by
        simp only [countMatches, List.length_eq_zero]
        rw [List.filter_eq_nil_iff]
        intro r hr
        simp only [decide_eq_true_eq]
        exact h r hr d (List.mem_cons_self d ds)
      rw [hmap, hcount]
      exact ih (fun r hr e he => h r hr e (List.mem_cons_of_mem d he))

theorem processTable_ok {α : Type} (repl : String) (dangs : List String)
    (rows : List (Row α)) :
    processTable repl dangs (TableState.ok rows) =
      (TableState.ok
        (rows.map (fun r => ⟨applyDangs repl dangs r.region_id, r.rest⟩)),
       TableResult.fixed (updatePass repl rows 0 dangs).2) := by
  simp only [processTable, updatePass_fst]

theorem processTable_clean {α : Type} (repl : String) {dangs : List String}
    {rows : List (Row α)}
    (h : ∀ r ∈ rows, ∀ d ∈ dangs, r.region_id ≠ some d) :
    processTable repl dangs (TableState.ok rows) =
      (TableState.ok rows, TableResult.fixed 0) := by
  simp only [processTable, updatePass_zero repl h 0]

/-- Running the per-table update a second time changes nothing and reports
either a skip or zero rows, provided the replacement differs from every
dangling id. -/
theorem processTable_idem {α : Type} {repl : String} {dangs : List String}
    (h : ∀ d ∈ dangs, repl ≠ d) (st : TableState α) :
    processTable repl dangs (processTable repl dangs st).1 =
      ((processTable repl dangs st).1,
       match st with
       | TableState.ok _ => TableResult.fixed 0
       | _ => TableResult.skipped) := by
  cases st with
  | noColumn => rfl
  | broken rows => rfl
  | ok rows =>
      rw [processTable_ok]
      simp only
      rw [processTable_clean]
      intro r hr d hd
      simp only [List.mem_map] at hr
      rcases hr with ⟨r0, _, hr0⟩
      subst hr0
      exact applyDangs_ne_of_mem hd (h d hd) r0.region_id

theorem assocFind_assocSet_self {β : Type} (l : List (String × β)) (k : String)
    (v : β) : assocFind (assocSet l k v) k = (assocFind l k).map (fun _ => v) := by
  induction l with
  | nil => rfl
  | cons p rest ih =>
      simp only [assocSet] at ih ⊢
      simp only [List.map_cons]
      by_cases h : p.1 = k
      · simp [assocFind, h]
      · simp only [if_neg h, assocFind]
        exact ih

theorem assocFind_assocSet_ne {β : Type} {l : List (String × β)} {k k' : String}
    (h : k' ≠ k) (v : β) : assocFind (assocSet l k v) k' = assocFind l k' := by
  induction l with
  | nil => rfl
  | cons p rest ih =>
      simp only [assocSet] at ih ⊢
      simp only [List.map_cons]
      by_cases hp : p.1 = k
      · simp only [if_pos hp, assocFind]
        rw [if_neg (Ne.symm h : ¬ (k : String) = k'),
            if_neg (by rw [hp]; exact (Ne.symm h) : ¬ p.1 = k')]
        exact ih
      · simp only [if_neg hp, assocFind]
        by_cases hp' : p.1 = k'
        · rw [if_pos hp', if_pos hp']
        · rw [if_neg hp', if_neg hp']
          exact ih

theorem assocSet_keys {β : Type} (l : List (String × β)) (k : String) (v : β) :
    (assocSet l k v).map Prod.fst = l.map Prod.fst := by
  simp only [assocSet, List.map_map]
  apply List.map_congr_left
  intro p _
  simp only [Function.comp_apply]
  split
  · next h => exact h.symm
  · rfl

theorem assocFind_eq_none_iff {β : Type} (l : List (String × β)) (k : String) :
    assocFind l k = none ↔ ∀ p ∈ l, p.1 ≠ k := by
  induction l with
  | nil => simp [assocFind]
  | cons p rest ih =>
      simp only [assocFind]
      by_cases h : p.1 = k
      · simp [h]
      · simp [h, ih]

theorem assocFind_of_key_nodup {β : Type} {l : List (String × β)}
    (hK : (l.map Prod.fst).Nodup) {p : String × β} (hp : p ∈ l) :
    assocFind l p.1 = some p.2 := by
  induction l with
  | nil => cases hp
  | cons q rest ih =>
      simp only [List.map_cons, List.nodup_cons] at hK
      rcases List.mem_cons.mp hp with h | h
      · subst h
        simp [assocFind]
      · have hq : q.1 ≠ p.1 := by
          intro hc
          exact hK.1 (hc ▸ List.mem_map_of_mem Prod.fst h)
        simp only [assocFind, if_neg hq]
        exact ih hK.2 h

/-- Under unique table names, processing one named table is a pointwise map
over the association list. -/
theorem processNamedTable_eq_map {α : Type} (repl : String) (dangs : List String)
    {ts : Tables α} (hK : (ts.map Prod.fst).Nodup) (n : String) :
    (processNamedTable repl dangs ts n).1 =
      ts.map (fun p =>
        if p.1 = n then (p.1, (processTable repl dangs p.2).1) else p) := by
  simp only [processNamedTable]
  cases hfind : assocFind ts n with
  | none =>
      have hno := (assocFind_eq_none_iff ts n).mp hfind
      simp only
      symm
      calc ts.map (fun p => if p.1 = n then (p.1, (processTable repl dangs p.2).1) else p)
          = ts.map id := by
            apply List.map_congr_left
            intro p hp
            rw [if_neg (hno p hp)]
            rfl
        _ = ts := List.map_id ts
  | some st =>
      simp only [assocSet]
      apply List.map_congr_left
      intro p hp
      by_cases h : p.1 = n
      · rw [if_pos h, if_pos h]
        have : assocFind ts n = some p.2 := h ▸ assocFind_of_key_nodup hK hp
        rw [hfind] at this
        have hst : st = p.2 := Option.some.inj this
        rw [h, hst]
      · rw [if_neg h, if_neg h]

theorem processNamedTable_keys {α : Type} (repl : String) (dangs : List String)
    (ts : Tables α) (n : String) :
    ((processNamedTable repl dangs ts n).1).map Prod.fst = ts.map Prod.fst := by
  simp only [processNamedTable]
  cases assocFind ts n with
  | none => rfl
  | some st => exact assocSet_keys ts n _

theorem assocFind_processNamedTable_ne {α : Type} (repl : String)
    (dangs : List String) (ts : Tables α) {m n : String} (h : n ≠ m) :
    assocFind (processNamedTable repl dangs ts m).1 n = assocFind ts n := by
  simp only [processNamedTable]
  cases assocFind ts m with
  | none => rfl
  | some st => exact assocFind_assocSet_ne h _

/-- The report entry a table's own state determines: absent, column-less and
erroring tables are skipped; otherwise the UPDATEs run and are counted. -/
def tableOutcome {α : Type} (repl : String) (dangs : List String) :
    Option (TableState α) → TableResult
  | none => TableResult.skipped
  | some st => (processTable repl dangs st).2

theorem processNamedTable_snd {α : Type} (repl : String) (dangs : List String)
    (ts : Tables α) (n : String) :
    (processNamedTable repl dangs ts n).2 =
      tableOutcome repl dangs (assocFind ts n) := by
  simp only [processNamedTable, tableOutcome]
  cases assocFind ts n <;> rfl

theorem reconcile_report_keys {α : Type} (repl : String) (dangs : List String)
    (names : List String) :
    ∀ ts : Tables α,
      ((reconcile repl dangs ts names).2).map Prod.fst = names := by
  induction names with
  | nil => intro ts; rfl
  | cons m rest ih =>
      intro ts
      simp only [reconcile, List.map_cons]
      rw [ih]

/-- Per-table report independence: under distinct configured names, each
table's report entry is a function of that table's own state in the input
database — a failure on one table cannot change another's entry. -/
theorem reconcile_report {α : Type} (repl : String) (dangs : List String)
    {names : List String} (hN : names.Nodup) (ts : Tables α) :
    (reconcile repl dangs ts names).2 =
      names.map (fun n => (n, tableOutcome repl dangs (assocFind ts n))) := by
  induction names generalizing ts with
  | nil => rfl
  | cons m rest ih =>
      simp only [List.nodup_cons] at hN
      simp only [reconcile, List.map_cons]
      rw [processNamedTable_snd, ih hN.2]
      congr 1
      apply List.map_congr_left
      intro n hn
      have hnm : n ≠ m := fun hc => hN.1 (hc ▸ hn)
      rw [assocFind_processNamedTable_ne repl dangs ts hnm]

/-- Under distinct configured names and unique table names, the whole sweep
is a pointwise map over the database's tables: each configured table is
replaced by its own processed state, everything else is untouched. -/
theorem reconcile_tables {α : Type} (repl : String) (dangs : List String)
    {names : List String} (hN : names.Nodup) {ts : Tables α}
    (hK : (ts.map Prod.fst).Nodup) :
    (reconcile repl dangs ts names).1 =
      ts.map (fun p =>
        if p.1 ∈ names then (p.1, (processTable repl dangs p.2).1) else p) := by
  induction names generalizing ts with
  | nil =>
      simp only [reconcile, List.not_mem_nil, if_false]
      symm
      calc ts.map (fun p => p) = ts.map id := rfl
        _ = ts := List.map_id ts
  | cons m rest ih =>
      simp only [List.nodup_cons] at hN
      simp only [reconcile]
      have hK' : (((processNamedTable repl dangs ts m).1).map Prod.fst).Nodup := by
        rw [processNamedTable_keys]; exact hK
      rw [ih hN.2 hK', processNamedTable_eq_map repl dangs hK m, List.map_map]
      apply List.map_congr_left
      intro p _
      simp only [Function.comp_apply]
      by_cases hpm : p.1 = m
      · rw [if_pos hpm]
        simp only
        rw [if_neg (by rw [hpm]; exact hN.1 : ¬ p.1 ∈ rest),
            if_pos (by rw [hpm]; exact List.mem_cons_self m rest : p.1 ∈ m :: rest)]
      · rw [if_neg hpm]
        by_cases hpr : p.1 ∈ rest
        · rw [if_pos hpr, if_pos (List.mem_cons_of_mem m hpr)]
        · rw [if_neg hpr,
              if_neg (by simp [List.mem_cons, hpm, hpr] : ¬ p.1 ∈ m :: rest)]

theorem assocFind_map_if {α : Type} (names : List String)
    (img : TableState α → TableState α) (n : String) :
    ∀ ts : Tables α,
      assocFind (ts.map (fun p => if p.1 ∈ names then (p.1, img p.2) else p)) n =
        (assocFind ts n).map (fun st => if n ∈ names then img st else st) := by
  intro ts
  induction ts with
  | nil => rfl
  | cons p rest ih =>
      simp only [List.map_cons, assocFind]
      by_cases hpn : p.1 = n
      · by_cases hmem : p.1 ∈ names
        · rw [if_pos hmem]
          simp only [assocFind, if_pos hpn]
          simp only [Option.map_some', if_pos (hpn ▸ hmem : n ∈ names)]
        · rw [if_neg hmem]
          simp only [assocFind, if_pos hpn]
          simp only [Option.map_some', if_neg (hpn ▸ hmem : ¬ n ∈ names)]
      · by_cases hmem : p.1 ∈ names
        · rw [if_pos hmem]
          simp only [assocFind, if_neg hpn]
          exact ih
        · rw [if_neg hmem]
          simp only [assocFind, if_neg hpn]
          exact ih

theorem reconcile_keys {α : Type} (repl : String) (dangs : List String)
    (names : List String) :
    ∀ ts : Tables α,
      ((reconcile repl dangs ts names).1).map Prod.fst = ts.map Prod.fst := by
  induction names with
  | nil => intro ts; rfl
  | cons m rest ih =>
      intro ts
      simp only [reconcile]
      rw [ih, processNamedTable_keys]

theorem reconcile_find {α : Type} (repl : String) (dangs : List String)
    {names : List String} (hN : names.Nodup) {ts : Tables α}
    (hK : (ts.map Prod.fst).Nodup) (n : String) :
    assocFind (reconcile repl dangs ts names).1 n =
      (assocFind ts n).map
        (fun st => if n ∈ names then (processTable repl dangs st).1 else st) := by
  rw [reconcile_tables repl dangs hN hK]
  exact assocFind_map_if names (fun st => (processTable repl dangs st).1) n ts

theorem mem_foldl_pushUnique {x : String} (l : List String) :
    ∀ acc : List String, x ∈ acc → x ∈ l.foldl pushUnique acc := by
  induction l with
  | nil => intro acc hx; exact hx
  | cons v vs ih =>
      intro acc hx
      apply ih
      simp only [pushUnique]
      split
      · exact hx
      · exact List.mem_append_left _ hx

theorem hardcoded_mem_problematicIds (discovered : List String) :
    hardcodedId ∈ problematicIds discovered :=
  mem_foldl_pushUnique discovered [hardcodedId] (List.mem_singleton.mpr rfl)

theorem problematicIds_length_pos (discovered : List String) :
    0 < (problematicIds discovered).length :=
  List.length_pos.mpr
    (List.ne_nil_of_mem (hardcoded_mem_problematicIds discovered))

theorem selectReplacement_valid {regions : List Region} {i : String}
    (h : selectReplacement regions = some i) :
    ∃ r : Region, r ∈ regions ∧ r.deleted_at = none ∧ r.id = i ∧
      i ∈ validIds regions := by
  simp only [selectReplacement, Option.map_eq_some'] at h
  rcases h with ⟨r, hr, hid⟩
  have hmem : r ∈ validRegions regions := by
    cases hv : validRegions regions with
    | nil => rw [hv] at hr; cases hr
    | cons a l =>
        rw [hv] at hr
        simp only [List.head?] at hr
        rw [← Option.some.inj hr]
        exact List.mem_cons_self a l
  have hfil := List.mem_filter.mp hmem
  refine ⟨r, hfil.1, by simpa using hfil.2, hid, ?_⟩
  exact hid ▸ List.mem_map_of_mem (fun r => r.id) hmem

theorem selectReplacement_eq_none {regions : List Region}
    (h : validRegions regions = []) : selectReplacement regions = none := by
  simp only [selectReplacement, h, List.head?, Option.map_none']

theorem selectReplacement_isSome {regions : List Region}
    (h : validRegions regions ≠ []) : ∃ i, selectReplacement regions = some i := by
  cases hv : validRegions regions with
  | nil => exact absurd hv h
  | cons a l =>
      exact ⟨a.id, by simp only [selectReplacement, hv, List.head?, Option.map_some']⟩

/-- Inversion of a completed `update-db.js` run into its pipeline pieces. -/
theorem fixRegionReferences_completed_inv {α : Type} {db db' : DB α}
    {repl : String} {dangs : List String} {report : List (String × TableResult)}
    (h : fixRegionReferences db = RunResult.completed db' repl dangs report) :
    selectReplacement db.regions = some repl ∧
    (∃ disc, discoverDangling db = some disc ∧ dangs = problematicIds disc) ∧
    db' = ⟨db.regions, (reconcile repl dangs db.tables updateDbTables).1⟩ ∧
    report = (reconcile repl dangs db.tables updateDbTables).2 := by
  cases hsel : selectReplacement db.regions with
  | none =>
      simp only [fixRegionReferences, hsel] at h
      cases h
  | some repl0 =>
      cases hdisc : discoverDangling db with
      | none =>
          simp only [fixRegionReferences, hsel, hdisc] at h
          cases h
      | some disc =>
          simp only [fixRegionReferences, hsel, hdisc] at h
          by_cases hlen : (problematicIds disc).length = 0
          · rw [if_pos hlen] at h
            cases h
          · rw [if_neg hlen] at h
            cases h
            exact ⟨by simp [hsel], ⟨disc, by simp [hdisc], rfl⟩, rfl, rfl⟩

/-- C8: for every database state with at least one valid (non-soft-deleted)
region, the replacement selection of `update-db.js` returns an identifier
that belongs to the valid-region set at call time: it is the id of a region
present in the region table whose soft-delete marker is null. -/
theorem c8_selectReplacement_returns_valid {regions : List Region}
    (h : validRegions regions ≠ []) :
    ∃ i r, selectReplacement regions = some i ∧ r ∈ regions ∧
      r.deleted_at = none ∧ r.id = i ∧ i ∈ validIds regions := by
  rcases selectReplacement_isSome h with ⟨i, hi⟩
  rcases selectReplacement_valid hi with ⟨r, h1, h2, h3, h4⟩
  exact ⟨i, r, hi, h1, h2, h3, h4⟩

def c8Regions : List Region :=
  [⟨"reg_a", "A", "usd", some 3⟩, ⟨"reg_b", "B", "eur", none⟩]

theorem c8_witness :
    ∃ i r, selectReplacement c8Regions = some i ∧ r ∈ c8Regions ∧
      r.deleted_at = none ∧ r.id = i ∧ i ∈ validIds c8Regions :=
  c8_selectReplacement_returns_valid (by decide)

def c2Regions : List Region :=
  [⟨"reg_eur_1", "Europe", "eur", none⟩,
   ⟨"reg_usd_1", "United States", "usd", none⟩]

/-- C2 counterexample: in `update-db.js` the selection is `SELECT id FROM
region WHERE deleted_at IS NULL LIMIT 1` — it never looks at the currency.
With a valid eur region listed before a valid usd region, the selection
returns the eur region even though a valid usd region exists, contradicting
the claim that the selection never returns a region of a different currency
when a usd region is present. -/
theorem c2_counterexample :
    (∃ r ∈ validRegions c2Regions, r.currency_code = "usd") ∧
    selectReplacement c2Regions = some "reg_eur_1" ∧
    ∀ r ∈ c2Regions, r.id = "reg_eur_1" → r.currency_code ≠ "usd" := by
  decide

/-- C2 amended: the usd preference holds for the replacement choice of
`part_006` (lines 596-624): whenever a valid usd region exists, the chosen
replacement for any detected old region id is a valid region with currency
usd. (`update-db.js` instead returns the first valid region regardless of
currency; both selections are pure functions of the database state, hence
deterministic.) -/
theorem c2_part006_prefers_usd {regions : List Region}
    (h : ∃ r ∈ validRegions regions, r.currency_code = "usd")
    (oldRegionId : String) :
    ∃ u : Region,
      part006ChooseReplacement (validRegions regions) oldRegionId = some u ∧
      u.currency_code = "usd" ∧ u ∈ validRegions regions := by
  rcases h with ⟨u0, hu0mem, hu0c⟩
  have hsome :
      ((validRegions regions).find?
        (fun r => decide (r.currency_code = "usd"))).isSome := by
    rw [List.find?_isSome]
    exact ⟨u0, hu0mem, by simp [hu0c]⟩
  rcases Option.isSome_iff_exists.mp hsome with ⟨u, hu⟩
  refine ⟨u, ?_, ?_, ?_⟩
  · simp only [part006ChooseReplacement, hu]
    split
    · rfl
    · simp [Option.orElse]
  · simpa using List.find?_some hu
  · exact List.mem_of_find?_eq_some hu

theorem c2_witness :
    ∃ u : Region,
      part006ChooseReplacement (validRegions c2Regions) "reg_old" = some u ∧
      u.currency_code = "usd" ∧ u ∈ validRegions c2Regions :=
  c2_part006_prefers_usd (by decide) "reg_old"

/-- C3 amended: with zero valid regions, `update-db.js` issues no UPDATE and
leaves the database unchanged, but the run is not fatal: the routine logs the
condition and returns normally (there is no `NoValidRegionError` anywhere in
the code), `main` prints its success message, and the process exit status is
0, not non-zero. -/
theorem c3_noValidRegion_returns_normally {α : Type} (db : DB α)
    (h : validRegions db.regions = []) :
    fixRegionReferences db = RunResult.noValidRegion db ∧
    mainExitCode (fixRegionReferences db) = 0 := by
  have hsel := selectReplacement_eq_none h
  refine ⟨?_, ?_⟩
  · simp only [fixRegionReferences, hsel]
  · simp only [fixRegionReferences, hsel, mainExitCode]

def c3db : DB Nat :=
  ⟨[⟨"reg_dead", "Dead", "usd", some 5⟩],
   [("cart", TableState.ok [⟨some "reg_x", 7⟩])]⟩

/-- C3 counterexample: a database whose only region is soft-deleted. The run
returns the early-return outcome with the database untouched and the process
exit status is 0 — the claim's required non-zero exit (a fatal
`NoValidRegionError`) does not happen. -/
theorem c3_counterexample :
    validRegions c3db.regions = [] ∧
    fixRegionReferences c3db = RunResult.noValidRegion c3db ∧
    mainExitCode (fixRegionReferences c3db) = 0 ∧
    mainExitCode (fixRegionReferences c3db) ≠ 1 := by
  decide

theorem c3_witness :
    fixRegionReferences c3db = RunResult.noValidRegion c3db ∧
    mainExitCode (fixRegionReferences c3db) = 0 :=
  c3_noValidRegion_returns_normally c3db (by decide)

/-- C1: after a completed `update-db.js` run, for every configured table that
was processed without error and every genuinely dangling identifier `d` in
the dangling set (an id that is not a valid region id), no row of the
processed table references `d` any more, and every row that referenced `d`
before the run references exactly the chosen replacement afterwards. Table
names are assumed unique in the schema. -/
theorem c1_dangling_rewritten {α : Type} {db db' : DB α}
    {repl : String} {dangs : List String} {report : List (String × TableResult)}
    (hrun : fixRegionReferences db = RunResult.completed db' repl dangs report)
    (hK : (db.tables.map Prod.fst).Nodup)
    {d : String} (hd : d ∈ dangs) (hdang : d ∉ validIds db.regions)
    {name : String} (hn : name ∈ updateDbTables)
    {rows : List (Row α)}
    (hok : assocFind db.tables name = some (TableState.ok rows)) :
    ∃ rows', assocFind db'.tables name = some (TableState.ok rows') ∧
      rows'.length = rows.length ∧
      (∀ r' ∈ rows', r'.region_id ≠ some d) ∧
      ∀ i (h1 : i < rows.length) (h2 : i < rows'.length),
        rows[i].region_id = some d → rows'[i].region_id = some repl := by
  rcases fixRegionReferences_completed_inv hrun with ⟨hsel, _, hdb', _⟩
  have hreplvalid : repl ∈ validIds db.regions := by
    rcases selectReplacement_valid hsel with ⟨r, _, _, _, h4⟩
    exact h4
  have hrd : repl ≠ d := fun hc => hdang (hc ▸ hreplvalid)
  have hN : updateDbTables.Nodup := by decide
  have hfind :
      assocFind db'.tables name =
        some (TableState.ok
          (rows.map (fun r => ⟨applyDangs repl dangs r.region_id, r.rest⟩))) := by
    rw [hdb']
    simp only
    rw [reconcile_find repl dangs hN hK name, hok, Option.map_some', if_pos hn,
        processTable_ok]
  refine ⟨_, hfind, List.length_map rows _, ?_, ?_⟩
  · intro r' hr'
    rcases List.mem_map.mp hr' with ⟨r0, _, hr0⟩
    subst hr0
    exact applyDangs_ne_of_mem hd hrd r0.region_id
  · intro i h1 h2 hval
    simp only [List.getElem_map, hval]
    exact applyDangs_of_eq repl hd

def c1db : DB Nat :=
  ⟨[⟨"reg_one", "One", "usd", none⟩],
   [("cart",
     TableState.ok [⟨some "reg_bad", 1⟩, ⟨some "reg_one", 2⟩, ⟨none, 3⟩])]⟩

def c1After : DB Nat :=
  ⟨[⟨"reg_one", "One", "usd", none⟩],
   [("cart",
     TableState.ok [⟨some "reg_one", 1⟩, ⟨some "reg_one", 2⟩, ⟨none, 3⟩])]⟩

def c1Report : List (String × TableResult) :=
  [("cart", TableResult.fixed 1), ("customer", TableResult.skipped),
   ("payment_session", TableResult.skipped),
   ("shipping_option", TableResult.skipped),
   ("shipping_method", TableResult.skipped),
   ("discount", TableResult.skipped),
   ("payment_collection", TableResult.skipped),
   ("pricing", TableResult.skipped)]

theorem c1_witness :
    ∃ rows', assocFind c1After.tables "cart" = some (TableState.ok rows') ∧
      rows'.length =
        ([⟨some "reg_bad", 1⟩, ⟨some "reg_one", 2⟩, ⟨none, 3⟩] :
          List (Row Nat)).length ∧
      (∀ r' ∈ rows', r'.region_id ≠ some "reg_bad") ∧
      ∀ i (h1 : i <
            ([⟨some "reg_bad", 1⟩, ⟨some "reg_one", 2⟩, ⟨none, 3⟩] :
              List (Row Nat)).length)
        (h2 : i < rows'.length),
        ([⟨some "reg_bad", 1⟩, ⟨some "reg_one", 2⟩, ⟨none, 3⟩] :
          List (Row Nat))[i].region_id = some "reg_bad" →
        rows'[i].region_id = some "reg_one" :=
  @c1_dangling_rewritten Nat c1db c1After "reg_one"
    ["reg_01JVK89Q8PEA1EMJS7FPBN12VF", "reg_bad"] c1Report
    (by decide) (by decide) "reg_bad" (by decide) (by decide) "cart"
    (by decide) [⟨some "reg_bad", 1⟩, ⟨some "reg_one", 2⟩, ⟨none, 3⟩]
    (by decide)

def c4db : DB Nat :=
  ⟨[⟨"reg_first", "First", "usd", none⟩,
    ⟨"reg_01JVK89Q8PEA1EMJS7FPBN12VF", "Legacy", "usd", none⟩],
   [("cart", TableState.ok [⟨some "reg_01JVK89Q8PEA1EMJS7FPBN12VF", 0⟩])]⟩

def c4After : DB Nat :=
  ⟨[⟨"reg_first", "First", "usd", none⟩,
    ⟨"reg_01JVK89Q8PEA1EMJS7FPBN12VF", "Legacy", "usd", none⟩],
   [("cart", TableState.ok [⟨some "reg_first", 0⟩])]⟩

def c4Report : List (String × TableResult) :=
  [("cart", TableResult.fixed 1), ("customer", TableResult.skipped),
   ("payment_session", TableResult.skipped),
   ("shipping_option", TableResult.skipped),
   ("shipping_method", TableResult.skipped),
   ("discount", TableResult.skipped),
   ("payment_collection", TableResult.skipped),
   ("pricing", TableResult.skipped)]

/-- C4 counterexample: the hardcoded seeded identifier is a currently valid
region (it is in the region table with a null soft-delete marker), yet the
run rewrites the cart row referencing it to the chosen replacement
`"reg_first"` and reports one updated row — the code performs no validity
re-check on seeded identifiers, so the run is not a no-op with respect to
the seeded valid id. -/
theorem c4_counterexample :
    hardcodedId ∈ validIds c4db.regions ∧
    fixRegionReferences c4db =
      RunResult.completed c4After "reg_first" [hardcodedId] c4Report ∧
    assocFind c4db.tables "cart" =
      some (TableState.ok [⟨some hardcodedId, 0⟩]) ∧
    assocFind c4After.tables "cart" =
      some (TableState.ok [⟨some "reg_first", 0⟩]) ∧
    (some "reg_first" : Option String) ≠ some hardcodedId ∧
    ("cart", TableResult.fixed 1) ∈ c4Report := by
  decide

/-- C4 amended: reconcile never re-checks the validity of a seeded
identifier. A run is a no-op with respect to a seeded identifier `s` exactly
when `s` happens to be the chosen replacement (or no row references `s`):
rows referencing `s` are left unchanged when `s` equals the replacement, and
are rewritten to the replacement — even if `s` is a valid region — when it
differs. -/
theorem c4_seeded_id_no_recheck {α : Type} {db db' : DB α}
    {repl : String} {dangs : List String} {report : List (String × TableResult)}
    (hrun : fixRegionReferences db = RunResult.completed db' repl dangs report)
    (hK : (db.tables.map Prod.fst).Nodup)
    {s : String} (hs : s ∈ dangs)
    {name : String} (hn : name ∈ updateDbTables)
    {rows : List (Row α)}
    (hok : assocFind db.tables name = some (TableState.ok rows)) :
    ∃ rows', assocFind db'.tables name = some (TableState.ok rows') ∧
      rows'.length = rows.length ∧
      ∀ i (h1 : i < rows.length) (h2 : i < rows'.length),
        rows[i].region_id = some s →
        (s = repl → rows'[i] = rows[i]) ∧
        rows'[i].region_id = some repl := by
  rcases fixRegionReferences_completed_inv hrun with ⟨_, _, hdb', _⟩
  have hN : updateDbTables.Nodup := by decide
  have hfind :
      assocFind db'.tables name =
        some (TableState.ok
          (rows.map (fun r => ⟨applyDangs repl dangs r.region_id, r.rest⟩))) := by
    rw [hdb']
    simp only
    rw [reconcile_find repl dangs hN hK name, hok, Option.map_some', if_pos hn,
        processTable_ok]
  refine ⟨_, hfind, List.length_map rows _, ?_⟩
  intro i h1 h2 hval
  constructor
  · intro hrepl
    subst hrepl
    simp only [List.getElem_map, hval, applyDangs_fixed]
    exact congrArg (fun v => Row.mk v (rows[i].rest)) hval.symm
  · simp only [List.getElem_map, hval]
    exact applyDangs_of_eq repl hs

theorem c4_witness :
    ∃ rows', assocFind c4After.tables "cart" = some (TableState.ok rows') ∧
      rows'.length = ([⟨some hardcodedId, 0⟩] : List (Row Nat)).length ∧
      ∀ i (h1 : i < ([⟨some hardcodedId, 0⟩] : List (Row Nat)).length)
        (h2 : i < rows'.length),
        ([⟨some hardcodedId, 0⟩] : List (Row Nat))[i].region_id =
          some hardcodedId →
        (hardcodedId = "reg_first" →
          rows'[i] = ([⟨some hardcodedId, 0⟩] : List (Row Nat))[i]) ∧
        rows'[i].region_id = some "reg_first" :=
  @c4_seeded_id_no_recheck Nat c4db c4After "reg_first" [hardcodedId] c4Report
    (by decide) (by decide) hardcodedId (by decide) "cart" (by decide)
    [⟨some hardcodedId, 0⟩] (by decide)

/-- C6: the frame property of a completed run. The region table is untouched.
Tables outside the configured list are untouched. Configured tables that are
absent, lack the column, or error keep their exact prior state. In a
processed table the row count is preserved, every row keeps all columns other
than the region reference bit-identical, and a row whose region reference
matches no dangling identifier is bit-identical as a whole. Table names are
assumed unique in the schema. -/
theorem c6_frame {α : Type} {db db' : DB α}
    {repl : String} {dangs : List String} {report : List (String × TableResult)}
    (hrun : fixRegionReferences db = RunResult.completed db' repl dangs report)
    (hK : (db.tables.map Prod.fst).Nodup) :
    db'.regions = db.regions ∧
    (∀ name, name ∉ updateDbTables →
      assocFind db'.tables name = assocFind db.tables name) ∧
    (∀ name, assocFind db.tables name = none →
      assocFind db'.tables name = none) ∧
    (∀ name ∈ updateDbTables,
      assocFind db.tables name = some TableState.noColumn →
      assocFind db'.tables name = some TableState.noColumn) ∧
    (∀ name ∈ updateDbTables, ∀ rows,
      assocFind db.tables name = some (TableState.broken rows) →
      assocFind db'.tables name = some (TableState.broken rows)) ∧
    (∀ name ∈ updateDbTables, ∀ rows,
      assocFind db.tables name = some (TableState.ok rows) →
      ∃ rows', assocFind db'.tables name = some (TableState.ok rows') ∧
        rows'.length = rows.length ∧
        (∀ i (h1 : i < rows.length) (h2 : i < rows'.length),
          rows'[i].rest = rows[i].rest) ∧
        (∀ i (h1 : i < rows.length) (h2 : i < rows'.length),
          (∀ d ∈ dangs, rows[i].region_id ≠ some d) →
          rows'[i] = rows[i])) := by
  rcases fixRegionReferences_completed_inv hrun with ⟨_, _, hdb', _⟩
  have hN : updateDbTables.Nodup := by decide
  have hfind : ∀ name,
      assocFind db'.tables name =
        (assocFind db.tables name).map
          (fun st =>
            if name ∈ updateDbTables then (processTable repl dangs st).1
            else st) := by
    intro name
    rw [hdb']
    simp only
    rw [reconcile_find repl dangs hN hK name]
  refine ⟨by rw [hdb'], ?_, ?_, ?_, ?_, ?_⟩
  · intro name hname
    rw [hfind name]
    cases assocFind db.tables name with
    | none => rfl
    | some st => simp [hname]
  · intro name hnone
    rw [hfind name, hnone]
    rfl
  · intro name hn hcol
    rw [hfind name, hcol, Option.map_some', if_pos hn]
    rfl
  · intro name hn rows hbroken
    rw [hfind name, hbroken, Option.map_some', if_pos hn]
    rfl
  · intro name hn rows hok
    rw [hfind name, hok, Option.map_some', if_pos hn, processTable_ok]
    refine ⟨_, rfl, List.length_map rows _, ?_, ?_⟩
    · intro i h1 h2
      simp only [List.getElem_map]
    · intro i h1 h2 hclean
      simp only [List.getElem_map]
      rw [applyDangs_of_not_mem hclean]

theorem c6_witness :
    c1After.regions = c1db.regions ∧
    (∀ name, name ∉ updateDbTables →
      assocFind c1After.tables name = assocFind c1db.tables name) ∧
    (∀ name, assocFind c1db.tables name = none →
      assocFind c1After.tables name = none) ∧
    (∀ name ∈ updateDbTables,
      assocFind c1db.tables name = some TableState.noColumn →
      assocFind c1After.tables name = some TableState.noColumn) ∧
    (∀ name ∈ updateDbTables, ∀ rows,
      assocFind c1db.tables name = some (TableState.broken rows) →
      assocFind c1After.tables name = some (TableState.broken rows)) ∧
    (∀ name ∈ updateDbTables, ∀ rows,
      assocFind c1db.tables name = some (TableState.ok rows) →
      ∃ rows', assocFind c1After.tables name = some (TableState.ok rows') ∧
        rows'.length = rows.length ∧
        (∀ i (h1 : i < rows.length) (h2 : i < rows'.length),
          rows'[i].rest = rows[i].rest) ∧
        (∀ i (h1 : i < rows.length) (h2 : i < rows'.length),
          (∀ d ∈ ["reg_01JVK89Q8PEA1EMJS7FPBN12VF", "reg_bad"],
            rows[i].region_id ≠ some d) →
          rows'[i] = rows[i])) :=
  @c6_frame Nat c1db c1After "reg_one"
    ["reg_01JVK89Q8PEA1EMJS7FPBN12VF", "reg_bad"] c1Report
    (by decide) (by decide)

/-- C7: per-table fault isolation. The sweep is total (no uncaught error is
possible in the model: every table state maps to an outcome), the report
holds exactly one entry per configured table in order, each entry is a
function of that table's own prior state alone — so a failure on one table
cannot abort or alter the processing of the others — and a table that is
absent, lacks the column, or errors is recorded as skipped. -/
theorem c7_per_table_isolation {α : Type} (repl : String) (dangs : List String)
    {names : List String} (hN : names.Nodup) (ts : Tables α) :
    (reconcile repl dangs ts names).2 =
      names.map (fun n => (n, tableOutcome repl dangs (assocFind ts n))) ∧
    ((reconcile repl dangs ts names).2).length = names.length ∧
    (∀ n ∈ names, assocFind ts n = none →
      (n, TableResult.skipped) ∈ (reconcile repl dangs ts names).2) ∧
    (∀ n ∈ names, assocFind ts n = some TableState.noColumn →
      (n, TableResult.skipped) ∈ (reconcile repl dangs ts names).2) ∧
    (∀ n ∈ names, ∀ rows, assocFind ts n = some (TableState.broken rows) →
      (n, TableResult.skipped) ∈ (reconcile repl dangs ts names).2) := by
  have hrep := reconcile_report repl dangs hN ts
  refine ⟨hrep, by rw [hrep, List.length_map], ?_, ?_, ?_⟩
  · intro n hn hnone
    rw [hrep]
    exact List.mem_map.mpr ⟨n, hn, by rw [hnone]; rfl⟩
  · intro n hn hcol
    rw [hrep]
    exact List.mem_map.mpr ⟨n, hn, by rw [hcol]; rfl⟩
  · intro n hn rows hbroken
    rw [hrep]
    exact List.mem_map.mpr ⟨n, hn, by rw [hbroken]; rfl⟩

def c7ts : Tables Nat :=
  [("cart", TableState.ok [⟨some "reg_bad", 1⟩]),
   ("customer", TableState.noColumn),
   ("discount", TableState.broken [⟨some "reg_bad", 2⟩])]

theorem c7_witness :
    (reconcile "reg_one" ["reg_bad"] c7ts updateDbTables).2 =
      updateDbTables.map
        (fun n => (n, tableOutcome "reg_one" ["reg_bad"] (assocFind c7ts n))) ∧
    ((reconcile "reg_one" ["reg_bad"] c7ts updateDbTables).2).length =
      updateDbTables.length ∧
    (∀ n ∈ updateDbTables, assocFind c7ts n = none →
      (n, TableResult.skipped) ∈
        (reconcile "reg_one" ["reg_bad"] c7ts updateDbTables).2) ∧
    (∀ n ∈ updateDbTables, assocFind c7ts n = some TableState.noColumn →
      (n, TableResult.skipped) ∈
        (reconcile "reg_one" ["reg_bad"] c7ts updateDbTables).2) ∧
    (∀ n ∈ updateDbTables, ∀ rows,
      assocFind c7ts n = some (TableState.broken rows) →
      (n, TableResult.skipped) ∈
        (reconcile "reg_one" ["reg_bad"] c7ts updateDbTables).2) :=
  c7_per_table_isolation "reg_one" ["reg_bad"] (by decide) c7ts

theorem processTable_idem_fst {α : Type} {repl : String} {dangs : List String}
    (h : ∀ d ∈ dangs, repl ≠ d) (st : TableState α) :
    (processTable repl dangs (processTable repl dangs st).1).1 =
      (processTable repl dangs st).1 := by
  rw [processTable_idem h st]

/-- C5: idempotence. When every dangling identifier differs from the chosen
replacement, running the sweep a second time with the same pair leaves every
table exactly as the first run left it, and the second report records zero
updated rows (or a skip) for every table. Configured names and table names
are assumed unique. -/
theorem c5_second_run_is_noop {α : Type} (repl : String) {dangs : List String}
    (hrd : ∀ d ∈ dangs, d ≠ repl)
    {names : List String} (hN : names.Nodup)
    {ts : Tables α} (hK : (ts.map Prod.fst).Nodup) :
    (reconcile repl dangs (reconcile repl dangs ts names).1 names).1 =
      (reconcile repl dangs ts names).1 ∧
    ∀ e ∈ (reconcile repl dangs (reconcile repl dangs ts names).1 names).2,
      e.2 = TableResult.skipped ∨ e.2 = TableResult.fixed 0 := by
  have hrepl : ∀ d ∈ dangs, repl ≠ d := fun d hd => (hrd d hd).symm
  have hK1 :
      (((reconcile repl dangs ts names).1).map Prod.fst).Nodup := by
    rw [reconcile_keys]; exact hK
  constructor
  · rw [reconcile_tables repl dangs hN hK1,
        reconcile_tables repl dangs hN hK, List.map_map]
    apply List.map_congr_left
    intro p _
    dsimp only [Function.comp_apply]
    by_cases hp : p.1 ∈ names
    · rw [if_pos hp]
      dsimp only
      rw [if_pos hp, processTable_idem_fst hrepl]
    · rw [if_neg hp, if_neg hp]
  · intro e he
    rw [reconcile_report repl dangs hN] at he
    rcases List.mem_map.mp he with ⟨n, hn, hne⟩
    subst hne
    rw [reconcile_find repl dangs hN hK n]
    cases hfind : assocFind ts n with
    | none => exact Or.inl rfl
    | some st =>
        simp only [Option.map_some', if_pos hn, tableOutcome]
        have := congrArg Prod.snd (processTable_idem hrepl st)
        simp only at this
        rw [this]
        cases st with
        | noColumn => exact Or.inl rfl
        | broken rows => exact Or.inl rfl
        | ok rows => exact Or.inr rfl

theorem c5_witness :
    (reconcile "reg_one" ["reg_bad"]
        (reconcile "reg_one" ["reg_bad"] c7ts fixRegionsTables).1
        fixRegionsTables).1 =
      (reconcile "reg_one" ["reg_bad"] c7ts fixRegionsTables).1 ∧
    ∀ e ∈ (reconcile "reg_one" ["reg_bad"]
        (reconcile "reg_one" ["reg_bad"] c7ts fixRegionsTables).1
        fixRegionsTables).2,
      e.2 = TableResult.skipped ∨ e.2 = TableResult.fixed 0 :=
  c5_second_run_is_noop "reg_one" (by decide) (by decide) (by decide)

/-- C9: the dangling set built by discovery always contains the hardcoded
legacy identifier and is therefore never empty, so the "no problematic
region IDs found" early return is unreachable; every run that selects a
valid replacement and whose discovery query succeeds proceeds to the sweep,
whose report covers every configured table. -/
theorem c9_early_return_unreachable {α : Type} (db : DB α) :
    (∀ disc, discoverDangling db = some disc →
      hardcodedId ∈ problematicIds disc ∧ problematicIds disc ≠ []) ∧
    (∀ db0 : DB α, fixRegionReferences db ≠ RunResult.noProblematicIds db0) ∧
    (∀ repl disc, selectReplacement db.regions = some repl →
      discoverDangling db = some disc →
      fixRegionReferences db =
        RunResult.completed
          ⟨db.regions,
           (reconcile repl (problematicIds disc) db.tables updateDbTables).1⟩
          repl (problematicIds disc)
          (reconcile repl (problematicIds disc) db.tables updateDbTables).2 ∧
      ((reconcile repl (problematicIds disc) db.tables
          updateDbTables).2).map Prod.fst = updateDbTables) := by
  refine ⟨?_, ?_, ?_⟩
  · intro disc _
    exact ⟨hardcoded_mem_problematicIds disc,
      List.ne_nil_of_mem (hardcoded_mem_problematicIds disc)⟩
  · intro db0 hc
    cases hsel : selectReplacement db.regions with
    | none =>
        simp only [fixRegionReferences, hsel] at hc
        exact RunResult.noConfusion hc
    | some repl =>
        cases hdisc : discoverDangling db with
        | none =>
            simp only [fixRegionReferences, hsel, hdisc] at hc
            exact RunResult.noConfusion hc
        | some disc =>
            simp only [fixRegionReferences, hsel, hdisc] at hc
            by_cases hlen : (problematicIds disc).length = 0
            · exact absurd hlen
                (Nat.pos_iff_ne_zero.mp (problematicIds_length_pos disc))
            · rw [if_neg hlen] at hc
              exact RunResult.noConfusion hc
  · intro repl disc hsel hdisc
    refine ⟨?_, reconcile_report_keys repl (problematicIds disc) updateDbTables db.tables⟩
    simp only [fixRegionReferences, hsel, hdisc]
    rw [if_neg (Nat.pos_iff_ne_zero.mp (problematicIds_length_pos disc))]

theorem c9_witness :
    hardcodedId ∈ problematicIds ["reg_bad"] ∧
    fixRegionReferences c1db ≠ RunResult.noProblematicIds c1db ∧
    ((reconcile "reg_one" (problematicIds ["reg_bad"]) c1db.tables
        updateDbTables).2).map Prod.fst = updateDbTables :=
  ⟨((c9_early_return_unreachable c1db).1 ["reg_bad"] (by decide)).1,
   (c9_early_return_unreachable c1db).2.1 c1db,
   ((c9_early_return_unreachable c1db).2.2 "reg_one" ["reg_bad"]
     (by decide) (by decide)).2⟩

def demoUSRegion : StoreRegion :=
  ⟨"reg_us", "United States", "usd", [⟨some "us"⟩]⟩

/-- C10 counterexample: the claim quantifies over every country code, but the
falsy empty country code is never written into the cache: the first call
`getRegion ""` answers through the `"us"` entry and caches nothing under
`""`, so a second call with `""` consults the region list again and — here,
with the backend now failing — returns null instead of the previously
returned region. -/
theorem c10_counterexample :
    (getRegion (Except.ok (some [demoUSRegion])) [] "").1 = some demoUSRegion ∧
    (getRegion (Except.error ())
        (getRegion (Except.ok (some [demoUSRegion])) [] "").2 "").1 = none ∧
    (getRegion (Except.error ())
        (getRegion (Except.ok (some [demoUSRegion])) [] "").2 "").1 ≠
      some demoUSRegion := by
  decide

/-- C10 amended: the memoization claim holds for every non-empty country
code: once a call returns a region, any later call with the same code
returns that same region and leaves the module-level map untouched,
whatever the backend does in between — the region list is not consulted
again. (For the empty country code the first call caches nothing under its
key, so the guarantee fails; see the counterexample.) `getRegion` itself
never throws: with an uncached code and a throwing backend it returns null
and leaves the map unchanged. -/
theorem c10_getRegion_memoizes {b1 : Except Unit (Option (List StoreRegion))}
    {m : RegionMap} {cc : String} {r : StoreRegion}
    (hcc : cc ≠ "") (h1 : (getRegion b1 m cc).1 = some r) :
    (∀ b2, getRegion b2 (getRegion b1 m cc).2 cc =
      (some r, (getRegion b1 m cc).2)) ∧
    (∀ (m0 : RegionMap) (cc0 : String), assocFind m0 cc0 = none →
      getRegion (Except.error ()) m0 cc0 = (none, m0)) := by
  constructor
  · intro b2
    cases hfind : assocFind m cc with
    | some r0 =>
        simp only [getRegion, hfind] at h1 ⊢
        simp only [getRegion, hfind, h1]
    | none =>
        cases b1 with
        | error e =>
            simp only [getRegion, hfind] at h1
            cases h1
        | ok oregions =>
            cases oregions with
            | none =>
                simp only [getRegion, hfind] at h1
                cases h1
            | some regions =>
                simp only [getRegion, hfind, if_neg hcc] at h1 ⊢
                simp only [getRegion, h1]
  · intro m0 cc0 hnone
    simp only [getRegion, hnone]

theorem c10_witness :
    (∀ b2, getRegion b2
        (getRegion (Except.ok (some [demoUSRegion])) [] "us").2 "us" =
      (some demoUSRegion,
       (getRegion (Except.ok (some [demoUSRegion])) [] "us").2)) ∧
    (∀ (m0 : RegionMap) (cc0 : String), assocFind m0 cc0 = none →
      getRegion (Except.error ()) m0 cc0 = (none, m0)) :=
  c10_getRegion_memoizes (by decide) (by decide)
